import Mathlib

/-!
Verification of the resilient translation pipeline of the cjk-token-reducer
repository against its natural-language specification.

The Rust sources are shallowly embedded:
  - strings are lists of characters (`Str`); UTF-8 byte lengths are computed
    with `Char.utf8Size` where the source measures bytes;
  - the `u32`/`u64` counters mutated with atomic fetch-add use wrapping
    arithmetic, modelled with explicit `% 2^32` / `% 2^64`;
  - functions that read the system clock (`current_timestamp_secs`,
    `Utc::now`) take the current time as an explicit parameter;
  - the sequential semantics of a single caller is modelled: every
    compare-and-swap succeeds when its expected value matches.
-/

/-- Character-list model of Rust's `String` / `&str`. -/
abbrev Str := List Char

/-- Modulus of wrapping `u32` arithmetic. -/
def U32 : Nat := 4294967296

/-- Modulus of wrapping `u64` arithmetic. -/
def U64 : Nat := 18446744073709551616

/-- Unicode `White_Space` test, the set used by Rust's `char::is_whitespace`
and by the regex class `\s`. -/
def isUniWhitespace (c : Char) : Bool :=
  let n := c.toNat
  decide ((9 ≤ n ∧ n ≤ 13) ∨ n = 32 ∨ n = 133 ∨ n = 160 ∨ n = 5760 ∨
    (8192 ≤ n ∧ n ≤ 8202) ∨ n = 8232 ∨ n = 8233 ∨ n = 8239 ∨ n = 8287 ∨ n = 12288)

/-! ## Circuit breaker (src/resilience.rs, struct CircuitBreaker) -/

/-- States of the circuit breaker (src/resilience.rs, enum CircuitState). -/
inductive CircuitState where
  | Closed
  | Open
  | HalfOpen
deriving DecidableEq, Repr

/-- src/resilience.rs, struct CircuitBreaker. The atomics are plain naturals
here; `openedAt = 0` encodes the closed circuit exactly as in the source. -/
structure CircuitBreaker where
  failureCount : Nat
  threshold : Nat
  openedAt : Nat
  resetTimeoutSecs : Nat
  totalFailures : Nat
  recoveries : Nat
deriving DecidableEq, Repr

/-- CircuitBreaker::with_params. -/
def CircuitBreaker.withParams (threshold resetTimeoutSecs : Nat) : CircuitBreaker :=
  ⟨0, threshold, 0, resetTimeoutSecs, 0, 0⟩

/-- CircuitBreaker::state, with the clock passed in.  `now - openedAt` is
Nat subtraction, which is exactly the source's `saturating_sub`. -/
def CircuitBreaker.state (cb : CircuitBreaker) (now : Nat) : CircuitState :=
  if cb.openedAt = 0 then CircuitState.Closed
  else if cb.resetTimeoutSecs ≤ now - cb.openedAt then CircuitState.HalfOpen
  else CircuitState.Open

/-- CircuitBreaker::allow_request.  In the half-open branch the source claims
the trial slot with a CAS on `opened_at`; sequentially the CAS succeeds, so
the breaker returns true and bumps `opened_at` to `now`. -/
def CircuitBreaker.allowRequest (cb : CircuitBreaker) (now : Nat) : Bool × CircuitBreaker :=
  if cb.openedAt = 0 then (true, cb)
  else if now - cb.openedAt < cb.resetTimeoutSecs then (false, cb)
  else (true, { cb with openedAt := now })

/-- CircuitBreaker::record_success.  The CAS that closes the circuit succeeds
sequentially whenever `opened_at` is nonzero; the failure count is stored to
zero unconditionally. -/
def CircuitBreaker.recordSuccess (cb : CircuitBreaker) : CircuitBreaker :=
  if cb.openedAt ≠ 0 then
    { cb with openedAt := 0, recoveries := (cb.recoveries + 1) % U32, failureCount := 0 }
  else
    { cb with failureCount := 0 }

/-- CircuitBreaker::record_failure.  Both counters are `u32` fetch-adds and
wrap; `opened_at` is only CASed from 0 to `now` once the consecutive count
reaches the threshold. -/
def CircuitBreaker.recordFailure (cb : CircuitBreaker) (now : Nat) : CircuitBreaker :=
  let total := (cb.totalFailures + 1) % U32
  let failures := (cb.failureCount + 1) % U32
  let openedAt' := if cb.threshold ≤ failures ∧ cb.openedAt = 0 then now else cb.openedAt
  { cb with totalFailures := total, failureCount := failures, openedAt := openedAt' }

/-- CircuitBreaker::reset. -/
def CircuitBreaker.resetBreaker (cb : CircuitBreaker) : CircuitBreaker :=
  { cb with failureCount := 0, openedAt := 0 }

/-- A sequence of record_failure calls, each tagged with the clock value the
source would read inside the call. -/
def recordFailuresAt (cb : CircuitBreaker) (ts : List Nat) : CircuitBreaker :=
  ts.foldl CircuitBreaker.recordFailure cb

/-! ## Rate limiter (src/resilience.rs, struct RateLimiter) -/

/-- src/resilience.rs, struct RateLimiter.  The f64 field
`backoff_multiplier` is the constant 2.0 set in `new` and never changed, so
it is inlined as the factor 2 in `recordRateLimit`. -/
structure RateLimiter where
  minDelayMs : Nat
  nextAllowedMs : Nat
  maxDelayMs : Nat
  rateLimitHits : Nat
deriving DecidableEq, Repr

/-- RateLimiter::new. -/
def RateLimiter.new : RateLimiter := ⟨0, 0, 30000, 0⟩

/-- RateLimiter::record_success.  The source computes
`(current as f64 * 0.75) as u64`; 0.75 is a dyadic float and within the
reachable range (delays never exceed 30000, see the C10 invariant) the
product is exact, so the conversion is exactly `current * 3 / 4` in ℕ. -/
def RateLimiter.recordSuccess (rl : RateLimiter) : RateLimiter :=
  if rl.minDelayMs = 0 then rl
  else { rl with minDelayMs := rl.minDelayMs * 3 / 4 }

/-- RateLimiter::record_rate_limit.  `secs * 1000` is a wrapping `u64`
product; the backoff branch computes `(current.max(100) as f64 * 2.0) as
u64`, exact in the reachable range, i.e. `max current 100 * 2`. -/
def RateLimiter.recordRateLimit (rl : RateLimiter) (retryAfterSecs : Option Nat) : RateLimiter :=
  let hits := (rl.rateLimitHits + 1) % U32
  let newDelay :=
    match retryAfterSecs with
    | some secs => min ((secs * 1000) % U64) rl.maxDelayMs
    | none => min (max rl.minDelayMs 100 * 2) rl.maxDelayMs
  { rl with rateLimitHits := hits, minDelayMs := newDelay }

/-- RateLimiter::current_delay_ms. -/
def RateLimiter.currentDelayMs (rl : RateLimiter) : Nat := rl.minDelayMs

/-- RateLimiter::reset. -/
def RateLimiter.resetLimiter (rl : RateLimiter) : RateLimiter :=
  { rl with minDelayMs := 0, nextAllowedMs := 0 }

/-- The delay-mutating operations named by claim C10. -/
inductive RLOp where
  | rateLimit (retryAfterSecs : Option Nat)
  | success
  | resetOp
deriving DecidableEq, Repr

/-- Apply one operation to the rate limiter. -/
def applyRLOp (rl : RateLimiter) : RLOp → RateLimiter
  | RLOp.rateLimit r => rl.recordRateLimit r
  | RLOp.success => rl.recordSuccess
  | RLOp.resetOp => rl.resetLimiter

/-- Apply a sequence of operations to the rate limiter. -/
def applyRLOps (rl : RateLimiter) (ops : List RLOp) : RateLimiter :=
  ops.foldl applyRLOp rl

/-! ## Translation cache policy (src/cache.rs) -/

/-- src/cache.rs, struct CacheEntry; the timestamp is an `i64`. -/
structure CacheEntryM where
  translated : Str
  timestamp : Int
  sourceLang : Str
  targetLang : Str
deriving DecidableEq, Repr

/-- src/config.rs, struct CacheConfig. -/
structure CacheConfigM where
  enabled : Bool
  ttlDays : Nat
  maxSizeMb : Nat
deriving DecidableEq, Repr

/-- Lookup in an association-list model of the sled byte store. -/
def assocFind : List (Str × CacheEntryM) → Str → Option CacheEntryM
  | [], _ => none
  | (k, v) :: rest, key => if k = key then some v else assocFind rest key

/-- Removal from the association-list store (sled `remove`). -/
def assocRemove : List (Str × CacheEntryM) → Str → List (Str × CacheEntryM)
  | [], _ => []
  | (k, v) :: rest, key =>
    if k = key then assocRemove rest key else (k, v) :: assocRemove rest key

/-- src/cache.rs, struct TranslationCache.  The sled database is modelled as
an association list holding deserialized entries (the serde_json round trip
is identity on well-formed entries); the session hit/miss statistics
counters are not modelled, no claim mentions them. -/
structure TranslationCacheM where
  store : List (Str × CacheEntryM)
  config : CacheConfigM
deriving DecidableEq, Repr

/-- TranslationCache::get with the clock passed in: a present entry is a hit
iff `now - timestamp ≤ ttl`, otherwise it is removed and the call misses.
Returns the result together with the updated store. -/
def TranslationCacheM.get (c : TranslationCacheM) (now : Int) (key : Str) :
    Option CacheEntryM × TranslationCacheM :=
  match assocFind c.store key with
  | some entry =>
    let ttlSecs : Int := (c.config.ttlDays : Int) * 24 * 60 * 60
    if now - entry.timestamp > ttlSecs then
      (none, { c with store := assocRemove c.store key })
    else
      (some entry, c)
  | none => (none, c)

/-- TranslationCache::put, without the throttled size-limit enforcement
(the eviction policy is outside the claims checked here); sled `insert`
overwrites the previous value of the key. -/
def TranslationCacheM.put (c : TranslationCacheM) (key : Str) (entry : CacheEntryM) :
    TranslationCacheM :=
  { c with store := (key, entry) :: assocRemove c.store key }

/-- TranslationCache::make_key hashes `"{src}:{tgt}:{text}"` with SHA-256.
The hash is modelled by the preimage itself: an injective stand-in that
keeps equal inputs mapping to equal keys (hash collisions are idealized
away, nothing in the claims depends on the digest value). -/
def TranslationCacheM.makeKey (src tgt text : Str) : Str :=
  src ++ ':' :: tgt ++ ':' :: text

/-! ## Segment preserver (src/preserver.rs)

The six regex passes of `extract_and_preserve_with_config` are embedded as
explicit leftmost-match scanners over `Str`.  Each scanner returns
`(pre, matched, stored, post)` where the input is `pre ++ matched ++ post`,
`matched` is the full regex match that gets replaced by a placeholder and
`stored` is the text recorded in the segment (the capture group for the
marker passes, the full match otherwise).  The scanners advance one
character on a failed match attempt, exactly like the regex engine's
leftmost search. -/

/-- The reserved marker character U+FEFF wrapped around every placeholder. -/
def feff : Char := '﻿'

/-- The backtick character (written via its code point to keep the source
free of literal backticks). -/
def btick : Char := Char.ofNat 96

/-- src/preserver.rs, enum SegmentType. -/
inductive SegmentType where
  | CodeBlock
  | InlineCode
  | Url
  | FilePath
  | NoTranslate
  | EnglishTerm
deriving DecidableEq, Repr

/-- src/preserver.rs, fn segment_type_str. -/
def segmentTypeStr : SegmentType → Str
  | SegmentType.CodeBlock => ['c', 'o', 'd', 'e']
  | SegmentType.InlineCode => ['i', 'n', 'l', 'i', 'n', 'e']
  | SegmentType.Url => ['u', 'r', 'l']
  | SegmentType.FilePath => ['p', 'a', 't', 'h']
  | SegmentType.NoTranslate => ['n', 'o', 't', 'r', 'a', 'n', 's']
  | SegmentType.EnglishTerm => ['e', 'n', 'g', 't', 'e', 'r', 'm']

/-- Decimal digit character. -/
def digitChar (n : Nat) : Char := Char.ofNat (48 + n)

/-- Decimal digits of a natural number, most significant first (fueled
structural recursion; the fuel `n + 1` always suffices). -/
def natDigitsAux : Nat → Nat → Str
  | 0, _ => []
  | fuel + 1, n =>
    if n < 10 then [digitChar n]
    else natDigitsAux fuel (n / 10) ++ [digitChar (n % 10)]

/-- Decimal rendering of `n`, as produced by Rust's `format!("{n}")`. -/
def natDigits (n : Nat) : Str := natDigitsAux (n + 1) n

/-- The placeholder string `format!("\u{FEFF}cjk{type_str}{index}\u{FEFF}")`. -/
def placeholderStr (ty : SegmentType) (idx : Nat) : Str :=
  feff :: (['c', 'j', 'k'] ++ segmentTypeStr ty ++ natDigits idx) ++ [feff]

/-- src/preserver.rs, struct PreservedSegment. -/
structure PreservedSegment where
  placeholder : Str
  original : Str
  segmentType : SegmentType
deriving DecidableEq, Repr

/-- src/preserver.rs, struct PreserveResult. -/
structure PreserveResult where
  text : Str
  segments : List PreservedSegment
deriving DecidableEq, Repr

/-- A leftmost match decomposition `(pre, matched, stored, post)`. -/
abbrev MatchSplit := Str × Str × Str × Str

/-- Split a string at the leftmost occurrence of the literal `pat`:
returns the part before the occurrence and the part after it. -/
def splitOnFirst (pat : Str) : Str → Option (Str × Str)
  | [] => if pat.isPrefixOf ([] : Str) then some ([], []) else none
  | c :: rest =>
    if pat.isPrefixOf (c :: rest) then some ([], (c :: rest).drop pat.length)
    else (splitOnFirst pat rest).map (fun pr => (c :: pr.1, pr.2))

/-- Three backticks, the fence of CODE_BLOCK_RE. -/
def ticks3 : Str := [btick, btick, btick]

/-- CODE_BLOCK_RE, the regex r"```[\s\S]*?```": leftmost fence, then the
lazily-shortest interior up to the next fence. -/
def findCodeBlock (s : Str) : Option MatchSplit :=
  match splitOnFirst ticks3 s with
  | none => none
  | some (pre, r) =>
    match splitOnFirst ticks3 r with
    | none => none
    | some (mid, post) =>
      let m := ticks3 ++ mid ++ ticks3
      some (pre, m, m, post)

/-- INLINE_CODE_RE, the regex r"`[^`]+`": a backtick, a nonempty greedy run
of non-backticks, a closing backtick; a failed attempt advances one char. -/
def findInline : Str → Option MatchSplit
  | [] => none
  | c :: rest =>
    let shifted := (findInline rest).map (fun q => (c :: q.1, q.2.1, q.2.2.1, q.2.2.2))
    if c = btick then
      let run := rest.takeWhile (fun x => x ≠ btick)
      let rest' := rest.drop run.length
      match rest' with
      | _ :: after =>
        if 0 < run.length then
          some ([], btick :: run ++ [btick], btick :: run ++ [btick], after)
        else shifted
      | [] => shifted
    else shifted

/-- The literal "https://". -/
def httpsLit : Str := ['h', 't', 't', 'p', 's', ':', '/', '/']

/-- The literal "http://". -/
def httpLit : Str := ['h', 't', 't', 'p', ':', '/', '/']

/-- The scheme part `https?://` of URL_RE at the current position:
the byte length of the scheme if it is present. -/
def urlSchemeOf (s : Str) : Option Nat :=
  if httpsLit.isPrefixOf s then some 8
  else if httpLit.isPrefixOf s then some 7
  else none

/-- Trailing-punctuation strip of URL_RE's tail `[^\s]*[^\s.,;)]`: the
greedy run backtracks until its last character is outside `.,;)`. -/
def stripUrlTrail (run : Str) : Str :=
  (run.reverse.dropWhile (fun c => c = '.' ∨ c = ',' ∨ c = ';' ∨ c = ')')).reverse

/-- URL_RE, the regex r"https?://[^\s]*[^\s.,;)]". -/
def findUrl : Str → Option MatchSplit
  | [] => none
  | c :: rest =>
    let s := c :: rest
    let shifted := (findUrl rest).map (fun q => (c :: q.1, q.2.1, q.2.2.1, q.2.2.2))
    match urlSchemeOf s with
    | some k =>
      let tail0 := s.drop k
      let run := tail0.takeWhile (fun x => !(isUniWhitespace x))
      let stripped := stripUrlTrail run
      if 0 < stripped.length then
        let m := s.take k ++ stripped
        some ([], m, m, run.drop stripped.length ++ tail0.drop run.length)
      else shifted
    | none => shifted

/-- Model of the regex word class `\w` used by FILE_PATH_RE: ASCII
alphanumerics and the underscore, plus the CJK letter blocks this
repository feeds through the preserver.  Rust's Unicode `\w` is larger
(all alphabetic scripts); it agrees with this model on every input
evaluated in this development. -/
def isWordCharModel (c : Char) : Bool :=
  c.isAlphanum || c = '_' ||
  decide (0x4E00 ≤ c.toNat ∧ c.toNat ≤ 0x9FFF) ||
  decide (0x3040 ≤ c.toNat ∧ c.toNat ≤ 0x30FF) ||
  decide (0xAC00 ≤ c.toNat ∧ c.toNat ≤ 0xD7AF)

/-- The character class `[\w.\-]` of FILE_PATH_RE. -/
def pathCharB (c : Char) : Bool := isWordCharModel c || c = '.' || c = '-'

/-- Split a run on '/' characters (keeping empty parts). -/
def splitSlash : Str → List Str
  | [] => [[]]
  | c :: rest =>
    if c = '/' then [] :: splitSlash rest
    else
      match splitSlash rest with
      | [] => [[c]]
      | r :: rs => (c :: r) :: rs

/-- Index of the first empty part, if any. -/
def firstEmptyIdx : List Str → Option Nat
  | [] => none
  | r :: rs => if r = [] then some 0 else (firstEmptyIdx rs).map (· + 1)

/-- Rejoin parts with '/' separators. -/
def joinSlash : List Str → Str
  | [] => []
  | [r] => r
  | r :: rs => r ++ '/' :: joinSlash rs

/-- Extent of a FILE_PATH_RE match starting exactly at the head of `s`, if
any.  The regex is r"(?:\.\.?/)?(?:[\w.\-]+/)+[\w.\-]+(?:\.\w+)?"; since
'.' lies inside `[\w.\-]` the optional `\.\.?/` head and the optional
`\.\w+` tail are absorbed by the greedy groups, so the match over the
maximal run R = r0/r1/.../rm of path-or-slash characters is: with e the position where the
greedy `(?:[\w.\-]+/)+` stops (the first empty part, or m), the match ends
after r_e if r_e is nonempty and e ≥ 1, else after r_(e-1) if e ≥ 2
(one backtracked group), else the position fails. -/
def pathMatchAtHead (s : Str) : Option Str :=
  let R := s.takeWhile (fun x => pathCharB x || x = '/')
  let rs := splitSlash R
  let m := rs.length - 1
  let e := match firstEmptyIdx rs with
    | some i => min i m
    | none => m
  match rs.get? e with
  | some re =>
    if 1 ≤ e ∧ re ≠ [] then some (joinSlash (rs.take (e + 1)))
    else if 2 ≤ e ∧ re = [] then some (joinSlash (rs.take e))
    else none
  | none => none

/-- FILE_PATH_RE as a leftmost scanner. -/
def findPath : Str → Option MatchSplit
  | [] => none
  | c :: rest =>
    let s := c :: rest
    let shifted := (findPath rest).map (fun q => (c :: q.1, q.2.1, q.2.2.1, q.2.2.2))
    match pathMatchAtHead s with
    | some m => some ([], m, m, s.drop m.length)
    | none => shifted

/-- WIKI_MARKER_RE, the regex r"\[\[([^\]]+)\]\]"; `stored` is the capture
group (the inner content without the brackets). -/
def findWiki : Str → Option MatchSplit
  | [] => none
  | c :: rest =>
    let shifted := (findWiki rest).map (fun q => (c :: q.1, q.2.1, q.2.2.1, q.2.2.2))
    if c = '[' then
      match rest with
      | c2 :: rest2 =>
        if c2 = '[' then
          let inner := rest2.takeWhile (fun x => x ≠ ']')
          match rest2.drop inner.length with
          | ']' :: ']' :: after =>
            if 0 < inner.length then
              some ([], '[' :: '[' :: inner ++ [']', ']'], inner, after)
            else shifted
          | _ => shifted
        else shifted
      | [] => none
    else shifted

/-- HIGHLIGHT_MARKER_RE, the regex r"==([^=]+)=="; `stored` is the capture
group. -/
def findHighlight : Str → Option MatchSplit
  | [] => none
  | c :: rest =>
    let shifted := (findHighlight rest).map (fun q => (c :: q.1, q.2.1, q.2.2.1, q.2.2.2))
    if c = '=' then
      match rest with
      | c2 :: rest2 =>
        if c2 = '=' then
          let inner := rest2.takeWhile (fun x => x ≠ '=')
          match rest2.drop inner.length with
          | '=' :: '=' :: after =>
            if 0 < inner.length then
              some ([], '=' :: '=' :: inner ++ ['=', '='], inner, after)
            else shifted
          | _ => shifted
        else shifted
      | [] => none
    else shifted

/-- src/preserver.rs, fn replace_with_placeholders: replace every match of
one pass left to right, pushing a segment per match and bumping the shared
index.  `Regex::replace_all` finds the next match in the text after the end
of the previous one, which is exactly this recursion on `post`.  The fuel
(text length + 1 at every call site) dominates the recursion depth because
every match is nonempty. -/
def passReplace (find : Str → Option MatchSplit) (ty : SegmentType) :
    Nat → Nat → Str → Str × Nat × List PreservedSegment
  | 0, idx, text => (text, idx, [])
  | fuel + 1, idx, text =>
    match find text with
    | none => (text, idx, [])
    | some (pre, _m, stored, post) =>
      let ph := placeholderStr ty idx
      let (rest, idx', segs) := passReplace find ty fuel (idx + 1) post
      (pre ++ ph ++ rest, idx', ⟨ph, stored, ty⟩ :: segs)

/-- A detected English technical term with its character range (the source
records byte offsets; on the character-list model the offsets count
characters). -/
structure TermMatch where
  text : Str
  startPos : Nat
  endPos : Nat
deriving DecidableEq, Repr

/-- The pluggable term-detection strategy (trait TermDetector): either the
regex detector or the macOS NLP detector; the pipeline model is
parameterized over it exactly as the source is over the trait object. -/
abbrev TermDetector := Str → List TermMatch

/-- Insert into a list sorted by descending start offset. -/
def insertByStartDesc (t : TermMatch) : List TermMatch → List TermMatch
  | [] => [t]
  | u :: rest =>
    if u.startPos ≤ t.startPos then t :: u :: rest
    else u :: insertByStartDesc t rest

/-- `terms.sort_by(|a, b| b.start.cmp(&a.start))`: descending starts. -/
def sortByStartDesc : List TermMatch → List TermMatch
  | [] => []
  | t :: rest => insertByStartDesc t (sortByStartDesc rest)

/-- `result.replace_range(term.start..term.end, &placeholder)`. -/
def replaceRangeChars (s : Str) (a b : Nat) (repl : Str) : Str :=
  s.take a ++ repl ++ s.drop b

/-- Pass 7 of extract_and_preserve_with_config: replace detected English
terms from the highest start offset down, pushing segments in loop order. -/
def englishTermsPass (detector : TermDetector) (idx0 : Nat) (text : Str) :
    Str × Nat × List PreservedSegment :=
  (sortByStartDesc (detector text)).foldl
    (fun acc t =>
      let ph := placeholderStr SegmentType.EnglishTerm acc.2.1
      (replaceRangeChars acc.1 t.startPos t.endPos ph,
       acc.2.1 + 1,
       acc.2.2 ++ [⟨ph, t.text, SegmentType.EnglishTerm⟩]))
    (text, idx0, [])

/-- src/preserver.rs / src/config.rs, struct PreserveConfig.  The source's
`use_nlp` flag only selects which TermDetector the last pass uses; the
detector is a parameter here, so the flag is not replicated. -/
structure PreserveConfigM where
  wikiMarkers : Bool
  highlightMarkers : Bool
  englishTerms : Bool
deriving DecidableEq, Repr

/-- src/preserver.rs, fn extract_and_preserve_with_config: the six priority
passes threading one shared index, segments concatenated in creation
order. -/
def extractAndPreserveWithConfig (detector : TermDetector) (cfg : PreserveConfigM)
    (text : Str) : PreserveResult :=
  let p1 := passReplace findCodeBlock SegmentType.CodeBlock (text.length + 1) 0 text
  let p2 := passReplace findInline SegmentType.InlineCode (p1.1.length + 1) p1.2.1 p1.1
  let p3 := if cfg.wikiMarkers then
      passReplace findWiki SegmentType.NoTranslate (p2.1.length + 1) p2.2.1 p2.1
    else (p2.1, p2.2.1, [])
  let p4 := if cfg.highlightMarkers then
      passReplace findHighlight SegmentType.NoTranslate (p3.1.length + 1) p3.2.1 p3.1
    else (p3.1, p3.2.1, [])
  let p5 := passReplace findUrl SegmentType.Url (p4.1.length + 1) p4.2.1 p4.1
  let p6 := passReplace findPath SegmentType.FilePath (p5.1.length + 1) p5.2.1 p5.1
  let p7 := if cfg.englishTerms then englishTermsPass detector p6.2.1 p6.1
    else (p6.1, p6.2.1, [])
  ⟨p7.1, p1.2.2 ++ p2.2.2 ++ p3.2.2 ++ p4.2.2 ++ p5.2.2 ++ p6.2.2 ++ p7.2.2⟩

/-- src/preserver.rs, fn extract_and_preserve: the default config disables
the marker and English-term passes (PreserveConfig::default is all-false),
so the detector is never consulted. -/
def extractAndPreserve (text : Str) : PreserveResult :=
  extractAndPreserveWithConfig (fun _ => []) ⟨false, false, false⟩ text

/-- Rust's `str::replace`: replace every non-overlapping occurrence of `p`,
scanning left to right.  Fueled structural recursion; `s.length + 1` fuel
suffices for every nonempty pattern. -/
def replaceAllAux (p o : Str) : Nat → Str → Str
  | 0, s => s
  | fuel + 1, s =>
    if p.isPrefixOf s then o ++ replaceAllAux p o fuel (s.drop p.length)
    else
      match s with
      | [] => []
      | c :: rest => c :: replaceAllAux p o fuel rest

/-- `s.replace(p, o)`. -/
def replaceAll (s p o : Str) : Str := replaceAllAux p o (s.length + 1) s

/-- src/preserver.rs, fn restore_preserved: fold the segments in reverse
creation order, replacing each placeholder by its original text. -/
def restorePreserved (text : Str) (segments : List PreservedSegment) : Str :=
  segments.reverse.foldl (fun res sg => replaceAll res sg.placeholder sg.original) text

/-! ## Chunker (src/translator.rs, fn chunk_text / find_split_point_single_pass)

The source works on UTF-8 byte indices and slices at character boundaries.
On the character-list model a split position is the number of characters of
the first chunk (every Rust byte position produced by the scanner is of the
form `char_idx + len_utf8`, i.e. a character boundary, so the two views are
in bijection); byte lengths are recovered with `Char.utf8Size`. -/

/-- The constant MAX_CHUNK_SIZE (bytes). -/
def MAX_CHUNK_SIZE : Nat := 4500

/-- UTF-8 byte length of a string, Rust's `str::len`. -/
def utf8Len : Str → Nat
  | [] => 0
  | c :: rest => c.utf8Size + utf8Len rest

/-- Number of leading characters whose cumulative UTF-8 size fits in
`budget`: the char-count image of snapping `min(budget, len)` back to the
previous character boundary. -/
def takeBytesCount : Nat → Str → Nat
  | _, [] => 0
  | budget, c :: rest =>
    if c.utf8Size ≤ budget then takeBytesCount (budget - c.utf8Size) rest + 1
    else 0

/-- The char count corresponding to `safe_end` in
find_split_point_single_pass. -/
def safeCharCount (t : Str) : Nat := takeBytesCount MAX_CHUNK_SIZE t

/-- CJK sentence terminators (priority 1). -/
def isCjkSentenceEnd (c : Char) : Bool :=
  c = '。' || c = '！' || c = '？' || c = '｡'

/-- Western sentence terminators (priority 2). -/
def isWesternSentenceEnd (c : Char) : Bool :=
  c = '.' || c = '!' || c = '?'

/-- The lookahead check of the western-sentence case: the byte after the
terminator inside the window must be a space, newline, tab or CR, and a
missing byte (terminator at the window end) counts as a space
(`unwrap_or(b' ')` in the source). -/
def westernFollowOk : Option Char → Bool
  | none => true
  | some nc => nc = ' ' || nc = '\n' || nc = '\t' || nc = '\r'

/-- The four split candidates tracked by the scanner, as char counts. -/
structure SplitCands where
  cjk : Option Nat
  western : Option Nat
  newline : Option Nat
  space : Option Nat
deriving DecidableEq, Repr

/-- The single pass of find_split_point_single_pass over the window.  The
source scans in reverse and keeps the first hit per tier; equivalently this
forward recursion prefers hits found further right (`r.field <|> here`).
The source's early exit on a CJK hit only discards fallback candidates to
its left, which are never consulted when the CJK candidate exists, so the
result is identical. -/
def scanCands : Nat → Str → SplitCands
  | _, [] => ⟨none, none, none, none⟩
  | j, c :: rest =>
    let r := scanCands (j + 1) rest
    let here : Bool → Option Nat := fun cond => if cond then some (j + 1) else none
    ⟨r.cjk <|> here (isCjkSentenceEnd c),
     r.western <|> here (isWesternSentenceEnd c && westernFollowOk rest.head?),
     r.newline <|> here (c = '\n'),
     r.space <|> here (c = ' ' || c = '\t')⟩

/-- fn find_split_point_single_pass, returning the char count of the first
chunk.  The degenerate `safe_end == 0` branch returns the length of the
first character, i.e. one char. -/
def findSplitCount (t : Str) : Nat :=
  let sc := safeCharCount t
  if sc = 0 then 1
  else
    let cands := scanCands 0 (t.take sc)
    (cands.cjk <|> cands.western <|> cands.newline <|> cands.space).getD sc

/-- fn chunk_text: repeatedly split off the best prefix while more than
MAX_CHUNK_SIZE bytes remain.  Fuel `t.length + 1` dominates the loop count
because every split removes at least one character. -/
def chunkTextAux : Nat → Str → List Str
  | 0, t => [t]
  | fuel + 1, t =>
    if utf8Len t ≤ MAX_CHUNK_SIZE then [t]
    else
      let k := findSplitCount t
      t.take k :: chunkTextAux fuel (t.drop k)

/-- fn chunk_text. -/
def chunk_text (t : Str) : List Str := chunkTextAux (t.length + 1) t

/-! ## Language detector (src/detector.rs) -/

/-- src/detector.rs, enum Language (named Lang here: Mathlib already
exports a Language). -/
inductive Lang where
  | Chinese
  | Japanese
  | Korean
  | English
  | Unknown
deriving DecidableEq, Repr

/-- Language::code. -/
def Lang.code : Lang → Str
  | Lang.Chinese => ['z', 'h', '-', 'T', 'W']
  | Lang.Japanese => ['j', 'a']
  | Lang.Korean => ['k', 'o']
  | Lang.English => ['e', 'n']
  | Lang.Unknown => ['a', 'u', 't', 'o']

/-- src/detector.rs, struct CharCounts. -/
structure CharCounts where
  chinese : Nat
  japanese : Nat
  korean : Nat
  total : Nat
deriving DecidableEq, Repr

/-- One step of the counting loop of detect_language: whitespace is
skipped, every other character counts toward `total`, and the three match
arms classify the CJK ranges. -/
def countChar (counts : CharCounts) (c : Char) : CharCounts :=
  if isUniWhitespace c then counts
  else
    let n := c.toNat
    let counts := { counts with total := counts.total + 1 }
    if 0x4E00 ≤ n ∧ n ≤ 0x9FFF then { counts with chinese := counts.chinese + 1 }
    else if (0x3040 ≤ n ∧ n ≤ 0x309F) ∨ (0x30A0 ≤ n ∧ n ≤ 0x30FF) then
      { counts with japanese := counts.japanese + 1 }
    else if (0xAC00 ≤ n ∧ n ≤ 0xD7AF) ∨ (0x1100 ≤ n ∧ n ≤ 0x11FF) ∨
        (0x3130 ≤ n ∧ n ≤ 0x318F) then
      { counts with korean := counts.korean + 1 }
    else counts

/-- src/detector.rs, struct DetectionResult.  The f64 ratio is modelled as
an exact rational (`cjk_total / total`); the claims checked here only use
it in the threshold comparison. -/
structure DetectionResult where
  language : Lang
  ratio : ℚ
deriving DecidableEq

/-- `max_by_key` over the three scored languages.  Rust's `max_by_key`
returns the last of equally-maximal elements, so each later entry replaces
the running maximum when its score is at least as large. -/
def pickDominant (chinese japanese korean : Nat) : Lang × Nat :=
  let best : Lang × Nat := (Lang.Chinese, chinese)
  let best := if best.2 ≤ japanese + chinese / 3 then
      (Lang.Japanese, japanese + chinese / 3) else best
  if best.2 ≤ korean then (Lang.Korean, korean) else best

/-- src/detector.rs, fn detect_language. -/
def detectLanguage (text : Str) : DetectionResult :=
  let counts := text.foldl countChar ⟨0, 0, 0, 0⟩
  let lc := pickDominant counts.chinese counts.japanese counts.korean
  let cjkTotal := counts.korean + counts.japanese + counts.chinese
  let ratio : ℚ := if 0 < counts.total then (cjkTotal : ℚ) / (counts.total : ℚ) else 0
  let language := if lc.2 = 0 then Lang.English else lc.1
  ⟨language, ratio⟩

/-! ## Pipeline orchestrator (src/translator.rs) -/

/-- fn normalize_whitespace_internal: split on Unicode whitespace and
rejoin the words with single spaces. -/
def wordsAux : Str → Str → List Str
  | [], acc => if acc = [] then [] else [acc.reverse]
  | c :: rest, acc =>
    if isUniWhitespace c then
      if acc = [] then wordsAux rest [] else acc.reverse :: wordsAux rest []
    else wordsAux rest (c :: acc)

/-- `str::split_whitespace` collected to a list. -/
def splitWs (s : Str) : List Str := wordsAux s []

/-- Join words with single spaces. -/
def joinSp : List Str → Str
  | [] => []
  | [w] => w
  | w :: ws => w ++ ' ' :: joinSp ws

/-- fn normalize_whitespace_internal. -/
def normalize_whitespace_internal (s : Str) : Str := joinSp (splitWs s)

/-- src/config.rs, struct Config, restricted to the fields
translate_to_english_with_options reads.  The f64 threshold is an exact
rational here, compared against the detector's exact ratio. -/
structure ConfigM where
  threshold : ℚ
  normalizeWhitespace : Bool
  cache : CacheConfigM
  preserve : PreserveConfigM

/-- src/translator.rs, struct TranslationResult. -/
structure TranslationResultM where
  original : Str
  translated : Str
  wasTranslated : Bool
  sourceLanguage : Lang
  inputTokens : Nat
  outputTokens : Nat
  cacheHit : Bool
deriving DecidableEq, Repr

/-- fn translate_to_english_with_options.  The external collaborators are
parameters: `backend` is one successful google_translate_with_retry call
(the retry/breaker/limiter wrapper around the HTTP client), `countTokens`
is tokenizer::count_tokens, `detector` the term-detection strategy, `cache`
the opened store and `now` the clock.  The returned `Nat` counts backend
invocations (one per chunk dispatched, zero on the skip and cache-hit
paths), and the final component is the cache state after the call. -/
def translateToEnglishWithOptions (backend : Str → Str) (countTokens : Str → Nat)
    (detector : TermDetector) (cache : TranslationCacheM) (now : Int) (cfg : ConfigM)
    (useCache : Bool) (text : Str) : TranslationResultM × Nat × TranslationCacheM :=
  let detection := detectLanguage text
  if detection.ratio < cfg.threshold ∨ detection.language = Lang.English then
    (⟨text, text, false, detection.language, 0, 0, false⟩, 0, cache)
  else
    let preserved := extractAndPreserveWithConfig detector cfg.preserve text
    let textForTranslation :=
      if cfg.normalizeWhitespace then normalize_whitespace_internal preserved.text
      else preserved.text
    let cacheOn := useCache && cfg.cache.enabled
    let key := TranslationCacheM.makeKey detection.language.code ['e', 'n'] textForTranslation
    if cacheOn then
      match cache.get now key with
      | (some entry, cache') =>
        let finalText := restorePreserved entry.translated preserved.segments
        (⟨text, finalText, true, detection.language, countTokens text,
          countTokens finalText, true⟩, 0, cache')
      | (none, cache') =>
        let translated := ((chunk_text textForTranslation).map backend).flatten
        let entry : CacheEntryM := ⟨translated, now, detection.language.code, ['e', 'n']⟩
        let finalText := restorePreserved translated preserved.segments
        (⟨text, finalText, true, detection.language, countTokens text,
          countTokens finalText, false⟩,
         (chunk_text textForTranslation).length, cache'.put key entry)
    else
      let translated := ((chunk_text textForTranslation).map backend).flatten
      let finalText := restorePreserved translated preserved.segments
      (⟨text, finalText, true, detection.language, countTokens text,
        countTokens finalText, false⟩,
       (chunk_text textForTranslation).length, cache)

/-! ## Inputs used by the claim theorems -/

/-- The adversarial input of claim C1: a literal placeholder-shaped
substring (U+FEFF cjkurl0 U+FEFF) followed by a URL.  Extraction turns the
URL into exactly that placeholder, and restoration replaces both
occurrences. -/
def c1FailingInput : Str :=
  feff :: (['c', 'j', 'k', 'u', 'r', 'l', '0'] ++ [feff, ' '] ++
    ['h', 't', 't', 'p', 's', ':', '/', '/', 'e', 'x', 'a', 'm', 'p', 'l', 'e', '.', 'c', 'o', 'm'])

/-- What restore_preserved actually produces on `c1FailingInput`: the URL
twice. -/
def c1DoubledOutput : Str :=
  ['h', 't', 't', 'p', 's', ':', '/', '/', 'e', 'x', 'a', 'm', 'p', 'l', 'e', '.', 'c', 'o', 'm',
   ' '] ++
  ['h', 't', 't', 'p', 's', ':', '/', '/', 'e', 'x', 'a', 'm', 'p', 'l', 'e', '.', 'c', 'o', 'm']

/-! ## Helper lemmas -/

/-- Byte monotonicity of prefixes. -/
theorem utf8Len_take_le (k : Nat) (t : Str) : utf8Len (t.take k) ≤ utf8Len t := by
  induction t generalizing k with
  | nil => simp [utf8Len]
  | cons c rest ih =>
    cases k with
    | zero => simp [utf8Len]
    | succ k =>
      simp only [List.take_succ_cons, utf8Len]
      exact Nat.add_le_add_left (ih k) _

/-- The greedy byte-bounded prefix fits in the budget. -/
theorem takeBytesCount_spec (t : Str) : ∀ b : Nat, utf8Len (t.take (takeBytesCount b t)) ≤ b := by
  induction t with
  | nil => intro b; simp [takeBytesCount, utf8Len]
  | cons c rest ih =>
    intro b
    simp only [takeBytesCount]
    split
    · next hle =>
      simp only [List.take_succ_cons, utf8Len]
      have := ih (b - c.utf8Size)
      omega
    · simp [utf8Len]

/-- Case analysis for `Option.orElse` as used by the candidate scanner. -/
theorem orElse_eq_some_cases (a b : Option Nat) (v : Nat) (h : (a <|> b) = some v) :
    a = some v ∨ b = some v := by
  cases a with
  | none => right; simpa using h
  | some w => left; simpa using h

/-- Every candidate the scanner records lies in `[j+1, j + length]`: each is
of the form index + 1 for a character of the scanned window. -/
theorem scanCands_bounds (l : Str) : ∀ (j v : Nat),
    ((scanCands j l).cjk = some v ∨ (scanCands j l).western = some v ∨
     (scanCands j l).newline = some v ∨ (scanCands j l).space = some v) →
    j + 1 ≤ v ∧ v ≤ j + l.length := by
  induction l with
  | nil =>
    intro j v h
    simp [scanCands] at h
  | cons c rest ih =>
    intro j v h
    have hlen : (c :: rest).length = rest.length + 1 := rfl
    have step : ∀ (cond : Bool) (o : Option Nat),
        (o <|> (if cond then some (j + 1) else none)) = some v →
        (o = some v ∨ v = j + 1) := by
      intro cond o ho
      rcases orElse_eq_some_cases _ _ _ ho with h1 | h1
      · exact Or.inl h1
      · right
        by_cases hc : cond
        · simp [hc] at h1; omega
        · simp [hc] at h1
    have ihv : ∀ w, ((scanCands (j + 1) rest).cjk = some w ∨
        (scanCands (j + 1) rest).western = some w ∨
        (scanCands (j + 1) rest).newline = some w ∨
        (scanCands (j + 1) rest).space = some w) → j + 2 ≤ w ∧ w ≤ j + 1 + rest.length :=
      fun w hw => ih (j + 1) w hw
    simp only [scanCands] at h
    rcases h with h | h | h | h
    all_goals
      rcases step _ _ h with h1 | h1
      · first
        | (have hv := ihv v (Or.inl h1); simp [hlen]; omega)
        | (have hv := ihv v (Or.inr (Or.inl h1)); simp [hlen]; omega)
        | (have hv := ihv v (Or.inr (Or.inr (Or.inl h1))); simp [hlen]; omega)
        | (have hv := ihv v (Or.inr (Or.inr (Or.inr h1))); simp [hlen]; omega)
      · simp [hlen]; omega

/-- The split count is at least one character. -/
theorem findSplitCount_pos (t : Str) : 1 ≤ findSplitCount t := by
  unfold findSplitCount
  by_cases hsc : safeCharCount t = 0
  · simp [hsc]
  · simp only [hsc, if_false]
    set cands := scanCands 0 (t.take (safeCharCount t)) with hc
    rcases ho : (cands.cjk <|> cands.western <|> cands.newline <|> cands.space) with _ | v
    · simp [ho]; omega
    · simp only [ho, Option.getD_some]
      have : cands.cjk = some v ∨ cands.western = some v ∨
          cands.newline = some v ∨ cands.space = some v := by
        rcases orElse_eq_some_cases _ _ _ ho with h1 | h1
        · exact Or.inl h1
        · rcases orElse_eq_some_cases _ _ _ h1 with h2 | h2
          · exact Or.inr (Or.inl h2)
          · rcases orElse_eq_some_cases _ _ _ h2 with h3 | h3
            · exact Or.inr (Or.inr (Or.inl h3))
            · exact Or.inr (Or.inr (Or.inr h3))
      have := scanCands_bounds _ 0 v this
      omega

/-- The split count stays inside the byte-safe window when it is nonempty. -/
theorem findSplitCount_le (t : Str) (hsc : safeCharCount t ≠ 0) :
    findSplitCount t ≤ safeCharCount t := by
  unfold findSplitCount
  simp only [hsc, if_false]
  set cands := scanCands 0 (t.take (safeCharCount t)) with hc
  rcases ho : (cands.cjk <|> cands.western <|> cands.newline <|> cands.space) with _ | v
  · simp [ho]
  · simp only [ho, Option.getD_some]
    have : cands.cjk = some v ∨ cands.western = some v ∨
        cands.newline = some v ∨ cands.space = some v := by
      rcases orElse_eq_some_cases _ _ _ ho with h1 | h1
      · exact Or.inl h1
      · rcases orElse_eq_some_cases _ _ _ h1 with h2 | h2
        · exact Or.inr (Or.inl h2)
        · rcases orElse_eq_some_cases _ _ _ h2 with h3 | h3
          · exact Or.inr (Or.inr (Or.inl h3))
          · exact Or.inr (Or.inr (Or.inr h3))
    have hb := scanCands_bounds _ 0 v this
    have hlt : (t.take (safeCharCount t)).length ≤ safeCharCount t := by
      simp
    omega

/-- The first chunk split off never exceeds MAX_CHUNK_SIZE bytes. -/
theorem findSplitCount_bytes (t : Str) (ht : t ≠ []) :
    utf8Len (t.take (findSplitCount t)) ≤ MAX_CHUNK_SIZE := by
  by_cases hsc : safeCharCount t = 0
  · have hk : findSplitCount t = 1 := by unfold findSplitCount; simp [hsc]
    rw [hk]
    cases t with
    | nil => exact absurd rfl ht
    | cons c rest =>
      have : utf8Len (List.take 1 (c :: rest)) = c.utf8Size := by simp [utf8Len]
      rw [this]
      have := Char.utf8Size_le_four c
      unfold MAX_CHUNK_SIZE
      omega
  · have hk := findSplitCount_le t hsc
    have h1 : t.take (findSplitCount t) = (t.take (safeCharCount t)).take (findSplitCount t) := by
      rw [List.take_take, Nat.min_eq_left hk]
    rw [h1]
    calc utf8Len ((t.take (safeCharCount t)).take (findSplitCount t))
        ≤ utf8Len (t.take (safeCharCount t)) := utf8Len_take_le _ _
      _ ≤ MAX_CHUNK_SIZE := takeBytesCount_spec t MAX_CHUNK_SIZE

/-- The chunking loop: with enough fuel, chunks concatenate back to the
input and each chunk fits the byte budget. -/
theorem chunkTextAux_spec : ∀ (fuel : Nat) (t : Str), t.length ≤ fuel →
    (chunkTextAux fuel t).flatten = t ∧
    List.Forall (fun c => utf8Len c ≤ MAX_CHUNK_SIZE) (chunkTextAux fuel t) := by
  intro fuel
  induction fuel with
  | zero =>
    intro t ht
    have : t = [] := List.length_eq_zero.mp (Nat.le_zero.mp ht)
    subst this
    simp [chunkTextAux, utf8Len, MAX_CHUNK_SIZE]
  | succ fuel ih =>
    intro t ht
    by_cases h : utf8Len t ≤ MAX_CHUNK_SIZE
    · simp [chunkTextAux, h]
    · have htne : t ≠ [] := by
        intro he
        subst he
        exact h (by decide)
      have hk1 : 1 ≤ findSplitCount t := findSplitCount_pos t
      have hdrop : (t.drop (findSplitCount t)).length ≤ fuel := by
        have := List.length_drop (findSplitCount t) t
        have hlt : 1 ≤ t.length := by
          cases t with
          | nil => exact absurd rfl htne
          | cons a b => simp
        omega
      obtain ⟨ihc, ihb⟩ := ih (t.drop (findSplitCount t)) hdrop
      constructor
      · simp only [chunkTextAux, h, if_false, List.flatten_cons, ihc]
        exact List.take_append_drop _ t
      · simp only [chunkTextAux, h, if_false, List.forall_cons]
        exact ⟨findSplitCount_bytes t htne, ihb⟩

/-- Claim C2: the chunks of `chunk_text` concatenate, in order, to exactly
the input, and every chunk (not just all but the last) is at most
MAX_CHUNK_SIZE = 4500 UTF-8 bytes.  Chunks are character lists, so every
chunk boundary is a character boundary by construction. -/
theorem chunk_text_reassembly_and_bound (t : Str) :
    (chunk_text t).flatten = t ∧
    List.Forall (fun c => utf8Len c ≤ MAX_CHUNK_SIZE) (chunk_text t) :=
  chunkTextAux_spec (t.length + 1) t (Nat.le_succ _)

/-- Claim C2 witness: the theorem evaluated on a concrete text. -/
theorem chunk_text_reassembly_witness :
    (chunk_text ['a', 'b', ' ', 'c']).flatten = ['a', 'b', ' ', 'c'] ∧
    List.Forall (fun c => utf8Len c ≤ MAX_CHUNK_SIZE) (chunk_text ['a', 'b', ' ', 'c']) :=
  chunk_text_reassembly_and_bound ['a', 'b', ' ', 'c']

/-- Claim C5: record_success resets the consecutive-failure count to zero in
every state; when the breaker was Open or HalfOpen (opened-at nonzero) it
also moves opened-at back to 0 (Closed) and increments the recovery
counter. -/
theorem record_success_resets_and_closes (cb : CircuitBreaker) :
    cb.recordSuccess.failureCount = 0 ∧
    (cb.openedAt ≠ 0 →
      cb.recordSuccess.openedAt = 0 ∧
      cb.recordSuccess.recoveries = (cb.recoveries + 1) % U32) := by
  unfold CircuitBreaker.recordSuccess
  by_cases h : cb.openedAt = 0
  · simp [h]
  · simp [h]

/-- Claim C5 witness: a breaker open at time 5 with 2 consecutive failures
and 7 recoveries. -/
theorem record_success_resets_witness :
    (CircuitBreaker.recordSuccess ⟨2, 3, 5, 60, 9, 7⟩).failureCount = 0 ∧
    (CircuitBreaker.recordSuccess ⟨2, 3, 5, 60, 9, 7⟩).openedAt = 0 ∧
    (CircuitBreaker.recordSuccess ⟨2, 3, 5, 60, 9, 7⟩).recoveries = 8 := by
  have h := record_success_resets_and_closes ⟨2, 3, 5, 60, 9, 7⟩
  have h2 := h.2 (by decide)
  refine ⟨h.1, h2.1, ?_⟩
  rw [h2.2]
  decide

/-- Claim C6: when the breaker is already Open (opened-at nonzero),
record_failure leaves opened-at unchanged; from Closed (opened-at zero) it
sets opened-at to the current time exactly when the incremented consecutive
count reaches the threshold, and leaves it zero otherwise. -/
theorem record_failure_never_extends_open_window (cb : CircuitBreaker) (now : Nat) :
    (cb.openedAt ≠ 0 → (cb.recordFailure now).openedAt = cb.openedAt) ∧
    (cb.openedAt = 0 →
      (cb.recordFailure now).openedAt =
        if cb.threshold ≤ (cb.failureCount + 1) % U32 then now else 0) := by
  unfold CircuitBreaker.recordFailure
  constructor
  · intro h
    by_cases hth : cb.threshold ≤ (cb.failureCount + 1) % U32
    · simp [h, hth]
    · simp [h, hth]
  · intro h
    by_cases hth : cb.threshold ≤ (cb.failureCount + 1) % U32
    · simp [h, hth]
    · simp [h, hth]

/-- Claim C6 witness: an open breaker keeps its opened-at timestamp 5 under
a further failure; a closed breaker at the threshold opens at the failure
time 99. -/
theorem record_failure_frame_witness :
    (CircuitBreaker.recordFailure ⟨1, 3, 5, 60, 4, 0⟩ 99).openedAt = 5 ∧
    (CircuitBreaker.recordFailure ⟨2, 3, 0, 60, 2, 0⟩ 99).openedAt = 99 := by
  constructor
  · have h := (record_failure_never_extends_open_window ⟨1, 3, 5, 60, 4, 0⟩ 99).1 (by decide)
    simpa using h
  · have h := (record_failure_never_extends_open_window ⟨2, 3, 0, 60, 2, 0⟩ 99).2 rfl
    rw [h]
    decide

/-- Claim C7 counterexample: for the suggested delay
s = 18446744073709556 the wrapping u64 product `s * 1000` overflows to
4384, so the stored delay is 4384 and not `min (s * 1000) 30000 = 30000` as
the claim states for every s. -/
theorem rate_limit_retry_after_counterexample :
    (RateLimiter.new.recordRateLimit (some 18446744073709556)).currentDelayMs ≠
      min (18446744073709556 * 1000) 30000 := by
  decide

/-- Claim C7 amended: for every suggested delay s with s * 1000 below 2^64
(s ≤ 18446744073709551), record_rate_limit(Some s) stores exactly
min (s * 1000) 30000 milliseconds; in particular Some 30 stores exactly
30000. -/
theorem rate_limit_retry_after_cap (rl : RateLimiter) (s : Nat)
    (hmax : rl.maxDelayMs = 30000) (hs : s ≤ 18446744073709551) :
    (rl.recordRateLimit (some s)).currentDelayMs = min (s * 1000) 30000 ∧
    (rl.recordRateLimit (some 30)).currentDelayMs = 30000 := by
  constructor
  · have h1 : (rl.recordRateLimit (some s)).currentDelayMs =
        min ((s * 1000) % U64) rl.maxDelayMs := rfl
    rw [h1, hmax, Nat.mod_eq_of_lt (by unfold U64; omega)]
  · have h1 : (rl.recordRateLimit (some 30)).currentDelayMs =
        min ((30 * 1000) % U64) rl.maxDelayMs := rfl
    rw [h1, hmax]
    decide

/-- Claim C7 witness: the amended theorem at the fresh limiter and s = 30. -/
theorem rate_limit_retry_after_cap_witness :
    (RateLimiter.new.recordRateLimit (some 30)).currentDelayMs = min (30 * 1000) 30000 ∧
    (RateLimiter.new.recordRateLimit (some 30)).currentDelayMs = 30000 :=
  rate_limit_retry_after_cap RateLimiter.new 30 rfl (by decide)

/-- One rate-limiter operation keeps the delay at or below the cap and
never touches the cap itself. -/
theorem applyRLOp_inv (rl : RateLimiter) (op : RLOp)
    (h : rl.minDelayMs ≤ rl.maxDelayMs) :
    (applyRLOp rl op).minDelayMs ≤ (applyRLOp rl op).maxDelayMs ∧
    (applyRLOp rl op).maxDelayMs = rl.maxDelayMs := by
  cases op with
  | rateLimit r =>
    cases r with
    | none =>
      exact ⟨Nat.min_le_right _ _, rfl⟩
    | some s =>
      exact ⟨Nat.min_le_right _ _, rfl⟩
  | success =>
    have hs : applyRLOp rl RLOp.success = rl.recordSuccess := rfl
    rw [hs]
    unfold RateLimiter.recordSuccess
    split
    · exact ⟨h, rfl⟩
    · refine ⟨?_, rfl⟩
      show rl.minDelayMs * 3 / 4 ≤ rl.maxDelayMs
      have h34 : rl.minDelayMs * 3 / 4 ≤ rl.minDelayMs := by
        have h3 : rl.minDelayMs * 3 ≤ rl.minDelayMs * 4 :=
          Nat.mul_le_mul_left _ (by omega)
        calc rl.minDelayMs * 3 / 4 ≤ rl.minDelayMs * 4 / 4 := Nat.div_le_div_right h3
          _ = rl.minDelayMs := Nat.mul_div_cancel _ (by omega)
      omega
  | resetOp =>
    exact ⟨Nat.zero_le _, rfl⟩

/-- Folded invariant for any operation sequence. -/
theorem applyRLOps_inv (ops : List RLOp) : ∀ rl : RateLimiter,
    rl.minDelayMs ≤ rl.maxDelayMs →
    (applyRLOps rl ops).minDelayMs ≤ (applyRLOps rl ops).maxDelayMs ∧
    (applyRLOps rl ops).maxDelayMs = rl.maxDelayMs := by
  induction ops with
  | nil => intro rl h; exact ⟨h, rfl⟩
  | cons op rest ih =>
    intro rl h
    have hstep : applyRLOps rl (op :: rest) = applyRLOps (applyRLOp rl op) rest := rfl
    obtain ⟨h1, h2⟩ := applyRLOp_inv rl op h
    obtain ⟨h3, h4⟩ := ih (applyRLOp rl op) h1
    rw [hstep]
    exact ⟨h3, h4.trans h2⟩

/-- Claim C10: starting from RateLimiter::new, after any finite sequence of
record_rate_limit (with or without a suggested delay), record_success and
reset operations, the current minimum delay never exceeds 30000 ms. -/
theorem rate_limiter_delay_never_exceeds_max (ops : List RLOp) :
    (applyRLOps RateLimiter.new ops).currentDelayMs ≤ 30000 := by
  obtain ⟨h1, h2⟩ := applyRLOps_inv ops RateLimiter.new (by decide)
  have : (applyRLOps RateLimiter.new ops).maxDelayMs = 30000 := h2
  unfold RateLimiter.currentDelayMs
  omega

/-- Claim C10 witness: the invariant evaluated on a concrete operation
sequence that pushes the delay to the cap and back down. -/
theorem rate_limiter_delay_bound_witness :
    (applyRLOps RateLimiter.new
      [RLOp.rateLimit (some 60), RLOp.rateLimit none, RLOp.success,
       RLOp.resetOp, RLOp.rateLimit none]).currentDelayMs ≤ 30000 :=
  rate_limiter_delay_never_exceeds_max _

/-- Entries stripped of a key are no longer found under it. -/
theorem assocFind_assocRemove (st : List (Str × CacheEntryM)) (key : Str) :
    assocFind (assocRemove st key) key = none := by
  induction st with
  | nil => simp [assocRemove, assocFind]
  | cons kv rest ih =>
    by_cases h : kv.1 = key
    · simpa [assocRemove, h] using ih
    · simpa [assocRemove, assocFind, h] using ih

/-- Claim C8: an entry stored with timestamp T and TTL `ttl_days` is a hit
at T + TTL − 1 (TTL in seconds), and a get at T + TTL + 1 misses and
removes the entry from the store. -/
theorem cache_ttl_hit_then_miss_evicts (c : TranslationCacheM) (key : Str)
    (entry : CacheEntryM) (hfind : assocFind c.store key = some entry) :
    (c.get (entry.timestamp + (c.config.ttlDays : Int) * 24 * 60 * 60 - 1) key).1 = some entry ∧
    (c.get (entry.timestamp + (c.config.ttlDays : Int) * 24 * 60 * 60 + 1) key).1 = none ∧
    assocFind
      ((c.get (entry.timestamp + (c.config.ttlDays : Int) * 24 * 60 * 60 + 1) key).2).store
      key = none := by
  unfold TranslationCacheM.get
  rw [hfind]
  have hhit : ¬ (entry.timestamp + (c.config.ttlDays : Int) * 24 * 60 * 60 - 1 -
      entry.timestamp > (c.config.ttlDays : Int) * 24 * 60 * 60) := by omega
  have hmiss : entry.timestamp + (c.config.ttlDays : Int) * 24 * 60 * 60 + 1 -
      entry.timestamp > (c.config.ttlDays : Int) * 24 * 60 * 60 := by omega
  refine ⟨by simp [hhit], by simp [hmiss], ?_⟩
  simp only [hmiss, if_pos]
  exact assocFind_assocRemove c.store key

/-- Claim C8 witness: a one-entry cache with a 7-day TTL, stored at
timestamp 100: hit at 100 + 604800 − 1, miss and eviction at
100 + 604800 + 1. -/
theorem cache_ttl_witness :
    (TranslationCacheM.get ⟨[(['k'], ⟨['x'], 100, ['z', 'h'], ['e', 'n']⟩)], ⟨true, 7, 100⟩⟩
        (100 + 604800 - 1) ['k']).1 = some ⟨['x'], 100, ['z', 'h'], ['e', 'n']⟩ ∧
    (TranslationCacheM.get ⟨[(['k'], ⟨['x'], 100, ['z', 'h'], ['e', 'n']⟩)], ⟨true, 7, 100⟩⟩
        (100 + 604800 + 1) ['k']).1 = none := by
  have h := cache_ttl_hit_then_miss_evicts
    ⟨[(['k'], ⟨['x'], 100, ['z', 'h'], ['e', 'n']⟩)], ⟨true, 7, 100⟩⟩ ['k']
    ⟨['x'], 100, ['z', 'h'], ['e', 'n']⟩ (by decide)
  exact ⟨by simpa using h.1, by simpa using h.2.1⟩

/-- Folding record_failure over a closed breaker whose failure budget is
exactly exhausted by the call list sets opened-at to the clock value of the
final (threshold-reaching) call; the reset timeout is untouched. -/
theorem recordFailuresAt_opens : ∀ (ts : List Nat) (cb : CircuitBreaker) (tLast : Nat),
    cb.openedAt = 0 → cb.failureCount + ts.length = cb.threshold → cb.threshold < U32 →
    ts.getLast? = some tLast →
    (recordFailuresAt cb ts).openedAt = tLast ∧
    (recordFailuresAt cb ts).resetTimeoutSecs = cb.resetTimeoutSecs := by
  intro ts
  induction ts with
  | nil =>
    intro cb tLast _ _ _ hlast
    simp at hlast
  | cons t rest ih =>
    intro cb tLast h0 hsum hlt hlast
    have hstep : recordFailuresAt cb (t :: rest) = recordFailuresAt (cb.recordFailure t) rest :=
      rfl
    have hmod : (cb.failureCount + 1) % U32 = cb.failureCount + 1 := by
      apply Nat.mod_eq_of_lt
      simp only [List.length_cons] at hsum
      omega
    cases rest with
    | nil =>
      have hT : t = tLast := by simpa using hlast
      subst hT
      have hth : cb.threshold ≤ (cb.failureCount + 1) % U32 := by
        rw [hmod]
        simp only [List.length_cons, List.length_nil] at hsum
        omega
      have : (cb.recordFailure t).openedAt = t := by
        unfold CircuitBreaker.recordFailure
        simp [hth, h0]
      exact ⟨this, rfl⟩
    | cons t2 rest2 =>
      have hth : ¬ cb.threshold ≤ (cb.failureCount + 1) % U32 := by
        rw [hmod]
        simp only [List.length_cons] at hsum
        omega
      have hopen' : (cb.recordFailure t).openedAt = 0 := by
        unfold CircuitBreaker.recordFailure
        simp [hth, h0]
      have hcount' : (cb.recordFailure t).failureCount = cb.failureCount + 1 := by
        unfold CircuitBreaker.recordFailure
        simpa using hmod
      have hthresh' : (cb.recordFailure t).threshold = cb.threshold := rfl
      have hreset' : (cb.recordFailure t).resetTimeoutSecs = cb.resetTimeoutSecs := rfl
      have hlast' : (t2 :: rest2).getLast? = some tLast := by
        rw [← List.getLast?_cons_cons (a := t) (b := t2) (l := rest2)]
        exact hlast
      have hsum' : (cb.recordFailure t).failureCount + (t2 :: rest2).length =
          (cb.recordFailure t).threshold := by
        rw [hcount', hthresh']
        simp only [List.length_cons] at hsum ⊢
        omega
      have hlt' : (cb.recordFailure t).threshold < U32 := by rw [hthresh']; exact hlt
      obtain ⟨ha, hb⟩ := ih (cb.recordFailure t) tLast hopen' hsum' hlt' hlast'
      rw [hstep]
      exact ⟨ha, hb.trans hreset'⟩

/-- Claim C4: from a fresh breaker with failure threshold `threshold` and a
positive reset timeout window, exactly `threshold` consecutive
record_failure calls (clock values `ts`, the opening one nonzero) leave the
breaker Open, and allow_request rejects while the time elapsed since the
opening call is below the reset timeout. -/
theorem circuit_breaker_opens_after_threshold_failures
    (threshold reset : Nat) (ts : List Nat) (tLast now' : Nat)
    (hlen : ts.length = threshold) (hlt : threshold < U32)
    (hlast : ts.getLast? = some tLast) (htpos : 0 < tLast)
    (helapsed : now' - tLast < reset) :
    (recordFailuresAt (CircuitBreaker.withParams threshold reset) ts).state now' =
      CircuitState.Open ∧
    ((recordFailuresAt (CircuitBreaker.withParams threshold reset) ts).allowRequest now').1 =
      false := by
  obtain ⟨hopen, hreset⟩ := recordFailuresAt_opens ts (CircuitBreaker.withParams threshold reset)
    tLast rfl (by simpa [CircuitBreaker.withParams] using hlen) hlt hlast
  have hreset' : CircuitBreaker.resetTimeoutSecs
      (recordFailuresAt (CircuitBreaker.withParams threshold reset) ts) = reset := hreset
  constructor
  · unfold CircuitBreaker.state
    rw [hopen, hreset']
    have h1 : ¬ tLast = 0 := by omega
    have h2 : ¬ reset ≤ now' - tLast := by omega
    simp [h1, h2]
  · unfold CircuitBreaker.allowRequest
    rw [hopen, hreset']
    have h1 : ¬ tLast = 0 := by omega
    simp [h1, helapsed]

/-- Claim C4 witness: threshold 2, reset timeout 60, failures at times 5
and 7, queried at time 30. -/
theorem circuit_breaker_opens_witness :
    (recordFailuresAt (CircuitBreaker.withParams 2 60) [5, 7]).state 30 =
      CircuitState.Open ∧
    ((recordFailuresAt (CircuitBreaker.withParams 2 60) [5, 7]).allowRequest 30).1 = false :=
  circuit_breaker_opens_after_threshold_failures 2 60 [5, 7] 7 30
    rfl (by decide) rfl (by decide) (by decide)

/-- Claim C1, evaluated at the failing input: on an adversarial input that
already contains the literal placeholder-shaped substring
U+FEFF cjkurl0 U+FEFF, extraction issues that very placeholder for the URL
and restore_preserved (which replaces every occurrence of the placeholder,
in reverse creation order) substitutes the literal occurrence as well, so
the round trip returns the URL twice instead of the original text. -/
theorem preserver_roundtrip_violation :
    restorePreserved (extractAndPreserve c1FailingInput).text
      (extractAndPreserve c1FailingInput).segments = c1DoubledOutput ∧
    c1DoubledOutput ≠ c1FailingInput := by
  decide

/-- Claim C9: whenever the detected CJK ratio is below the configured
threshold or the detected language is English, the pipeline returns the
input text unchanged with was_translated = false, performs zero backend
calls, and leaves the cache untouched — the whole output is a constant
independent of the backend, tokenizer, term detector and cache
collaborators. -/
theorem pipeline_skips_translation_below_threshold
    (backend : Str → Str) (countTokens : Str → Nat) (detector : TermDetector)
    (cache : TranslationCacheM) (now : Int) (cfg : ConfigM) (useCache : Bool) (text : Str)
    (h : (detectLanguage text).ratio < cfg.threshold ∨
      (detectLanguage text).language = Lang.English) :
    translateToEnglishWithOptions backend countTokens detector cache now cfg useCache text =
      (⟨text, text, false, (detectLanguage text).language, 0, 0, false⟩, 0, cache) := by
  unfold translateToEnglishWithOptions
  rw [if_pos h]

/-- Claim C9 witness: a pure-English input through a fully-enabled config
returns unchanged with zero backend calls. -/
theorem pipeline_skip_witness :
    translateToEnglishWithOptions (fun s => s) (fun _ => 0) (fun _ => [])
      ⟨[], ⟨true, 7, 100⟩⟩ 0 ⟨(1 : ℚ)/10, false, ⟨true, 7, 100⟩, ⟨true, true, true⟩⟩ true
      ['h', 'i'] =
      (⟨['h', 'i'], ['h', 'i'], false, Lang.English, 0, 0, false⟩, 0, ⟨[], ⟨true, 7, 100⟩⟩) :=
  pipeline_skips_translation_below_threshold _ _ _ _ _ _ _ _ (Or.inr (by decide))
